import Mathlib

/-!
Shallow embedding of `git-vain` (src/git-vain.c, with src/prog.c as an
earlier snapshot of the same program) and verification of its
specification claims.

Buffers are `List Nat` of byte values.  C `int` arithmetic that can go
negative is modelled with `Int` (truncating division `Int.tdiv` /
`Int.tmod`, as in C); indices and lengths are `Nat`.
-/

namespace GitVain

/-! ### Candidate Builder: `mytoa` and `alter` (src/git-vain.c lines 128-142)

`mytoa(val, dst)` writes the decimal digits of `val` right-to-left into
`dst[1] .. dst[dateLen-1]`; the loop `for(; i ; --i)` stops before
index 0, so `dst[0]` is never written.  `alter` applies it at the two
timestamp offsets, author field first. -/

/-- One iteration `dst[off+i] = val % 10 + '0'; val /= 10` for
`i = k, k-1, ..., 1` (index `off` itself is never written). -/
def mytoaAux (off : Nat) : Nat → Int → List Nat → List Nat
  | 0, _, dst => dst
  | k + 1, val, dst =>
      mytoaAux off k (Int.tdiv val 10) (dst.set (off + k + 1) (Int.tmod val 10 + 48).toNat)

/-- `mytoa` from src/git-vain.c: the loop starts at `i = dateLen-1`. -/
def mytoa (off dateLen : Nat) (val : Int) (dst : List Nat) : List Nat :=
  mytoaAux off (dateLen - 1) val dst

/-- `alter` from src/git-vain.c: rewrite the author field, then the
committer field. -/
def alter (dst : List Nat) (dateLen : Nat) (authOffset : Nat) (authDate : Int)
    (commOffset : Nat) (commDate : Int) : List Nat :=
  mytoa commOffset dateLen commDate (mytoa authOffset dateLen authDate dst)

/-! ### Match predicate: `shacmp` (src/git-vain.c lines 144-154) and the
hex-pattern decoding loop of `main` (lines 279-285). -/

/-- `strtoul`'s value of a single lowercase-hex character byte
(the pattern is guaranteed hex by `allHex`, which also lowercases). -/
def hexCharVal (c : Nat) : Nat :=
  if 48 ≤ c ∧ c ≤ 57 then c - 48
  else if 97 ≤ c ∧ c ≤ 102 then c - 87
  else 0

/-- The lowercase hex character (as a byte) for a nibble, as printed by
`sprintf "%02x"`. -/
def toHexChar (n : Nat) : Nat := if n < 10 then 48 + n else 87 + n

/-- The hex-string-to-bytes loop of `main`: pairs of pattern characters
become one byte; a trailing lone character (odd-length pattern) is
parsed by `strtoul` as a single hex digit, giving the nibble value. -/
def hexMessageOf : List Nat → List Nat
  | [] => []
  | [c] => [hexCharVal c]
  | c1 :: c2 :: rest => (16 * hexCharVal c1 + hexCharVal c2) :: hexMessageOf rest

/-- The `while` loop of `shacmp`.  The C comparisons are on `int`, so
`messageLen - 1` is `-1` for an empty pattern; we compare over `Int`.
The `fuel` argument only makes the recursion structural: while
`messageLen ≤ 2 * fuel + i` — which holds at every call site and is
preserved by the loop — the `fuel = 0` state can only be a loop-exit
state with `i > messageLen - 1`, whose value is `true`. -/
def shacmpAux (hexMsg sha : List Nat) (messageLen : Nat) : Nat → Nat → Bool
  | 0, _ => true
  | fuel + 1, i =>
    if (i : Int) < (messageLen : Int) - 1 then
      if hexMsg.getD (i / 2) 0 = sha.getD (i / 2) 0 then
        shacmpAux hexMsg sha messageLen fuel (i + 2)
      else false
    else if (i : Int) = (messageLen : Int) - 1 then
      decide (hexMsg.getD (i / 2) 0 = sha.getD (i / 2) 0 / 16)
    else true

/-- `shacmp` from src/git-vain.c (the translated-to-bytes pattern
`hexMessage` and the global `messageLen` are passed explicitly). -/
def shacmp (hexMsg sha : List Nat) (messageLen : Nat) : Bool :=
  shacmpAux hexMsg sha messageLen messageLen 0

example : shacmp (hexMessageOf [97, 98]) (171 :: List.replicate 19 0) 2 = true := by decide
example : shacmp (hexMessageOf [97, 98]) (170 :: List.replicate 19 0) 2 = false := by decide
example : shacmp (hexMessageOf [97, 98, 99]) (171 :: 199 :: List.replicate 18 0) 3 = true := by
  decide
example : shacmp (hexMessageOf [97, 98, 99]) (171 :: 183 :: List.replicate 18 0) 3 = false := by
  decide
example : shacmp (hexMessageOf []) (171 :: List.replicate 19 0) 0 = true := by decide

example : mytoa 0 2 20 [49, 57] = [49, 48] := by decide
example : alter [49, 57, 32, 49, 57] 2 0 20 3 19 = [49, 48, 32, 49, 57] := by decide

/-! ### Delta Enumerator: `spiral_pair` and `spiral_max`
(src/git-vain.c lines 156-173)

For `n ≥ 1` the C `int s = (sqrt(n)+1)/2` equals `(Nat.sqrt n + 1) / 2`:
truncation of `(√n + 1)/2` commutes with flooring `√n`, and for
`n < (2·7201)²` the `double` square root is far too accurate to cross an
integer.  All remaining arithmetic is on nonnegative ints except `e`,
which can be negative and is computed over `Int`. -/

/-- The integer square root `⌊√n⌋` (what the C truncation of the
`double` `sqrt(n)` computes at every argument this program uses),
defined structurally so it evaluates in the kernel. -/
def isqrt (n : Nat) : Nat := Nat.findGreatest (fun k => k * k ≤ n) n

/-- `spiral_pair` from src/git-vain.c.  The C `switch` has cases
`0, 1, 2` and a `default` that receives `l = 3`. -/
def spiralPair (n : Nat) : Int × Int :=
  let s : Nat := (isqrt n + 1) / 2
  let lt : Nat := n - (2 * s - 1) ^ 2
  let l : Nat := lt / (2 * s)
  let e : Int := (lt : Int) - 2 * (s : Int) * (l : Int) - (s : Int) + 1
  if l = 0 then ((s : Int), e)
  else if l = 1 then (-e, (s : Int))
  else if l = 2 then (-(s : Int), -e)
  else (e, -(s : Int))

/-- `spiral_max` from src/git-vain.c. -/
def spiralMax (maxSide : Nat) : Nat := (maxSide * 2 + 1) * (maxSide * 2 + 1) - 1

/-- Chebyshev distance from the origin (`max(|x|,|y|)`). -/
def chebyshev (p : Int × Int) : Nat := max p.1.natAbs p.2.natAbs

/-- Explicit inverse of `spiralPair` on the ring of Chebyshev radius
`s ≥ 1`: the four branches are the four sides of the square ring, in the
order the spiral walks them. -/
def spiralIndex (p : Int × Int) : Nat :=
  let x := p.1
  let y := p.2
  let s : Nat := max x.natAbs y.natAbs
  if x = (s : Int) ∧ -(s : Int) < y then (2 * s - 1) ^ 2 + (y + s - 1).toNat
  else if y = (s : Int) then (2 * s - 1) ^ 2 + 2 * s + ((s : Int) - 1 - x).toNat
  else if x = -(s : Int) then (2 * s - 1) ^ 2 + 4 * s + ((s : Int) - 1 - y).toNat
  else (2 * s - 1) ^ 2 + 6 * s + (x + s - 1).toNat

example : spiralPair 1 = (1, 0) := by decide
example : spiralPair 2 = (1, 1) := by decide
example : spiralPair 3 = (0, 1) := by decide
example : spiralPair 4 = (-1, 1) := by decide
example : spiralPair 5 = (-1, 0) := by decide
example : spiralPair 6 = (-1, -1) := by decide
example : spiralPair 7 = (0, -1) := by decide
example : spiralPair 8 = (1, -1) := by decide
example : spiralPair 9 = (2, -1) := by decide
example : spiralMax 1 = 8 := by decide
example : spiralIndex (1, -1) = 8 := by decide
example : spiralIndex (2, -1) = 9 := by decide

/-! ### Commit Model: `getTimeOffset` (src/git-vain.c lines 90-112)

`getTimeOffset` scans for the marker string and then for `"> "`, with
plain `for` loops whose exit leaves the pointer at the loop bound; it
has no failure path and always returns `ptr - commit`.  Pointers are
modelled as `Nat` offsets from the start of the buffer. -/

/-- C `strlen`: bytes before the first NUL. -/
def cstrlen (l : List Nat) : Nat := (l.takeWhile (· ≠ 0)).length

/-- `strncmp(commit+p, search, strlen(search)) == 0` (the marker strings
contain no NUL, so this is slice equality). -/
def matchesAt (commit search : List Nat) (p : Nat) : Bool :=
  (commit.drop p).take search.length == search

/-- One `for (; ptr < commit+bound; ptr++)` scan loop with a `break` on
match; returns the final offset (first match, or the loop bound, or the
start if it is already past the bound).  `fuel` only makes the recursion
structural; the `fuel = 0` case is unreachable when `bound ≤ fuel + p`. -/
def findFrom (commit search : List Nat) (bound : Nat) : Nat → Nat → Nat
  | fuel, p =>
    if p < bound then
      if matchesAt commit search p then p
      else
        match fuel with
        | 0 => p
        | f + 1 => findFrom commit search bound f (p + 1)
    else p

/-- `getTimeOffset` from src/git-vain.c.  Note `len` is the length of
the body (`strlen(ptr)` after `ptr += headerLen`) while both loop
bounds are taken from the start of the buffer (`commit + len - ...`). -/
def getTimeOffset (headerLen : Nat) (search commit : List Nat) : Nat :=
  let len := cstrlen (commit.drop headerLen)
  let p1 := findFrom commit search (len - search.length) (len - search.length) headerLen
  let p2 := findFrom commit [62, 32] (len - 2) (len - 2) (p1 + search.length)
  p2 + 2

/-- The byte sequence of the C string `"\nauthor "`. -/
def authorMarker : List Nat := [10, 97, 117, 116, 104, 111, 114, 32]

/-- The byte sequence of the C string `"\ncommitter "`. -/
def committerMarker : List Nat := [10, 99, 111, 109, 109, 105, 116, 116, 101, 114, 32]

/-! ### Digest Evaluator: SHA-1
(CommonCrypto's `CC_SHA1_Init` / `CC_SHA1_Update` / `CC_SHA1_Final`)

Modelled from the spec: the digest algorithm itself is an external
library (`CommonCrypto`), not part of this repository's sources; §4.4
describes its streaming interface (a context that absorbs bytes and is
finalized), which is standard SHA-1: a 5-word state, 64-byte blocks,
unprocessed bytes buffered in the context, Merkle–Damgård length
padding at finalization.  Words are `Nat` reduced mod `2^32`. -/

/-- Rotate a 32-bit word left by `k`. -/
def rotl (k x : Nat) : Nat := (x * 2 ^ k + x / 2 ^ (32 - k)) % 2 ^ 32

/-- Big-endian 32-bit word `i` of a 64-byte chunk. -/
def wordOf (chunk : List Nat) (i : Nat) : Nat :=
  2 ^ 24 * chunk.getD (4 * i) 0 + 2 ^ 16 * chunk.getD (4 * i + 1) 0 +
    2 ^ 8 * chunk.getD (4 * i + 2) 0 + chunk.getD (4 * i + 3) 0

/-- Extend the 16-word message schedule by `k` more words. -/
def extendW : Nat → List Nat → List Nat
  | 0, ws => ws
  | k + 1, ws =>
      extendW k (ws ++ [rotl 1 (Nat.xor
        (Nat.xor (ws.getD (ws.length - 3) 0) (ws.getD (ws.length - 8) 0))
        (Nat.xor (ws.getD (ws.length - 14) 0) (ws.getD (ws.length - 16) 0)))])

/-- The 80-word message schedule of a chunk. -/
def schedule (chunk : List Nat) : List Nat := extendW 64 ((List.range 16).map (wordOf chunk))

/-- The five 32-bit working variables of SHA-1. -/
structure Sha1State where
  a : Nat
  b : Nat
  c : Nat
  d : Nat
  e : Nat
deriving DecidableEq

/-- The SHA-1 round function (`Ch`, `Parity`, `Maj`, `Parity`). -/
def shaF (t b c d : Nat) : Nat :=
  if t < 20 then Nat.lor (Nat.land b c) (Nat.land (2 ^ 32 - 1 - b) d)
  else if t < 40 then Nat.xor (Nat.xor b c) d
  else if t < 60 then Nat.lor (Nat.lor (Nat.land b c) (Nat.land b d)) (Nat.land c d)
  else Nat.xor (Nat.xor b c) d

/-- The SHA-1 round constants. -/
def shaK (t : Nat) : Nat :=
  if t < 20 then 0x5A827999 else if t < 40 then 0x6ED9EBA1
  else if t < 60 then 0x8F1BBCDC else 0xCA62C1D6

/-- One SHA-1 round. -/
def roundStep (ws : List Nat) (st : Sha1State) (t : Nat) : Sha1State :=
  { a := (rotl 5 st.a + shaF t st.b st.c st.d + st.e + shaK t + ws.getD t 0) % 2 ^ 32,
    b := st.a, c := rotl 30 st.b, d := st.c, e := st.d }

/-- The SHA-1 compression function on one 64-byte chunk. -/
def compress (st : Sha1State) (chunk : List Nat) : Sha1State :=
  let ws := schedule chunk
  let r := (List.range 80).foldl (roundStep ws) st
  { a := (st.a + r.a) % 2 ^ 32, b := (st.b + r.b) % 2 ^ 32, c := (st.c + r.c) % 2 ^ 32,
    d := (st.d + r.d) % 2 ^ 32, e := (st.e + r.e) % 2 ^ 32 }

/-- `CC_SHA1_CTX`: hash state, buffered unprocessed bytes, total length
absorbed so far. -/
structure Sha1Ctx where
  h : Sha1State
  buf : List Nat
  len : Nat
deriving DecidableEq

/-- Process exactly `k` leading 64-byte blocks. -/
def processBlocks : Nat → Sha1State → List Nat → Sha1State × List Nat
  | 0, s, l => (s, l)
  | k + 1, s, l => processBlocks k (compress s (l.take 64)) (l.drop 64)

/-- Process every complete 64-byte block of `l`, returning the new state
and the remaining (< 64) bytes. -/
def processChunks (s : Sha1State) (l : List Nat) : Sha1State × List Nat :=
  processBlocks (l.length / 64) s l

/-- `CC_SHA1_Init`. -/
def sha1Init : Sha1Ctx :=
  { h := { a := 0x67452301, b := 0xEFCDAB89, c := 0x98BADCFE, d := 0x10325476, e := 0xC3D2E1F0 },
    buf := [], len := 0 }

/-- `CC_SHA1_Update`: absorb `data`, processing complete blocks and
buffering the remainder. -/
def sha1Update (ctx : Sha1Ctx) (data : List Nat) : Sha1Ctx :=
  let p := processChunks ctx.h (ctx.buf ++ data)
  { h := p.1, buf := p.2, len := ctx.len + data.length }

/-- The 8-byte big-endian bit-length trailer. -/
def lenBytes (len : Nat) : List Nat :=
  let bits := 8 * len
  [bits / 2 ^ 56 % 256, bits / 2 ^ 48 % 256, bits / 2 ^ 40 % 256, bits / 2 ^ 32 % 256,
    bits / 2 ^ 24 % 256, bits / 2 ^ 16 % 256, bits / 2 ^ 8 % 256, bits % 256]

/-- The `0x80`, zero padding, and length trailer appended by
`CC_SHA1_Final`. -/
def shaPadding (len : Nat) : List Nat :=
  128 :: List.replicate ((120 - (len + 1) % 64) % 64) 0 ++ lenBytes len

/-- Big-endian bytes of a 32-bit word. -/
def wordBytes (w : Nat) : List Nat :=
  [w / 2 ^ 24 % 256, w / 2 ^ 16 % 256, w / 2 ^ 8 % 256, w % 256]

/-- `CC_SHA1_Final`: pad and emit the 20 digest bytes. -/
def sha1Final (ctx : Sha1Ctx) : List Nat :=
  let p := processChunks ctx.h (ctx.buf ++ shaPadding ctx.len)
  wordBytes p.1.a ++ wordBytes p.1.b ++ wordBytes p.1.c ++ wordBytes p.1.d ++ wordBytes p.1.e

/-- A one-shot SHA-1 of a whole buffer (the from-scratch computation,
as `SHA1(newCommit, commitLen, hash)` in src/prog.c). -/
def sha1 (data : List Nat) : List Nat := sha1Final (sha1Update sha1Init data)

set_option maxRecDepth 100000 in
example :
    sha1 [97, 98, 99] =
      [169, 153, 62, 54, 71, 6, 129, 106, 186, 62, 37, 113, 120, 80, 194, 108, 156, 208, 216, 157] := by
  decide

/-! ### Search Coordinator: `Search` and the thread setup of `main`
(src/git-vain.c lines 218-258 and 311-320)

Each worker thread scans `n = start, start+skip, …` below
`spiral_max(3600)`; per candidate it applies `spiral_pair`, `alter`, the
precomputed-prefix digest, and `shacmp`.  The shared `found` flag and
`count` only affect early exit and progress display, not which indices
can match, so a worker is modelled as the pure first-match scan of its
arithmetic progression.  The radius is the configuration value of §6
(src hard-codes its default, 3600). -/

/-- The candidate buffer a worker builds for index `n`. -/
def candidateAt (base : List Nat) (dateLen : Nat) (authOffset : Nat) (authDate : Int)
    (commOffset : Nat) (commDate : Int) (n : Nat) : List Nat :=
  alter base dateLen authOffset (authDate + (spiralPair n).1)
    commOffset (commDate + (spiralPair n).2)

/-- Whether the candidate at index `n` matches the target pattern:
`shacmp(hash)` after the SHA-1 of the candidate.  (By the
prefix-equivalence theorem below, the precomputed-prefix digest the
worker computes equals this from-scratch digest.) -/
def hitAt (hexMsg : List Nat) (msgLen : Nat) (base : List Nat) (dateLen : Nat)
    (authOffset : Nat) (authDate : Int) (commOffset : Nat) (commDate : Int) (n : Nat) : Bool :=
  shacmp hexMsg (sha1 (candidateAt base dateLen authOffset authDate commOffset commDate n)) msgLen

/-- The `for(n=start; n < max; n += skip)` loop of `Search`: first
matching index, if any.  `fuel` only makes the recursion structural;
at every call site `maxN ≤ fuel` and `1 ≤ skip`, so the recursion can
only reach `fuel = 0` with `n ≥ maxN`, where the loop has exited. -/
def workerScan (hit : Nat → Bool) (maxN skip : Nat) : Nat → Nat → Option Nat
  | 0, n => if n < maxN then (if hit n then some n else none) else none
  | fuel + 1, n =>
    if n < maxN then
      if hit n then some n else workerScan hit maxN skip fuel (n + skip)
    else none

/-- Outcome of a run: some worker matched (and runs the Finalizer), or
every worker exhausted its range. -/
inductive RunResult where
  | success (n : Nat)
  | exhausted
deriving DecidableEq

/-- The run with the 8 workers `main` spawns (worker `i` starts at
`i + 1` and strides by `MAX_THREADS = 8`). -/
def runSearch (hit : Nat → Bool) (maxN : Nat) : RunResult :=
  match (List.range 8).filterMap (fun i => workerScan hit maxN 8 maxN (i + 1)) with
  | [] => RunResult.exhausted
  | n :: _ => RunResult.success n

/-- `ammend_commit` is called exactly when a worker's `shacmp` returned
true, i.e. on the success outcome. -/
def finalizerInvoked : RunResult → Bool
  | RunResult.success _ => true
  | RunResult.exhausted => false

/-! ### Commit Finalizer: `ammend_commit` (src/git-vain.c lines 175-216)

The function's effects are modelled as the report it prints, the
external commands it issues (in order), and its exit status; the hash
`git hash-object` prints back is an input from the external backend. -/

/-- The external backend commands `ammend_commit` can issue. -/
inductive GitCmd where
  | writeStagingFile (bytes : List Nat)
  | hashObjectCheck
  | resetSoftHead
  | hashObjectWrite
  | resetSoftTo (hash : List Nat)
deriving DecidableEq

/-- Observable result of `ammend_commit`: the success report
(∆a, ∆c, count/1000, hex digest), the mismatch report (git's hash and
ours), the backend commands issued, and `some 1` when it `exit(1)`s. -/
structure FinalizeResult where
  report : Option (Int × Int × Nat × List Nat)
  mismatchReport : Option (List Nat × List Nat)
  cmds : List GitCmd
  exitCode : Option Nat
deriving DecidableEq

/-- The `sprintf(progHash+i*2, "%02x", sha[i])` loop: lowercase hex
rendering of a digest. -/
def hexRender (sha : List Nat) : List Nat :=
  (sha.map (fun b => [toHexChar (b / 16), toHexChar (b % 16)])).flatten

/-- `ammend_commit` from src/git-vain.c. -/
def ammendCommit (dryRun : Bool) (newCommit : List Nat) (headerLen commitLen : Nat)
    (sha : List Nat) (da dc : Int) (count : Nat) (gitHash : List Nat) : FinalizeResult :=
  let progHash := hexRender sha
  let report := some (da, dc, count / 1000, progHash)
  if dryRun then
    { report := report, mismatchReport := none, cmds := [], exitCode := none }
  else
    let staged := (newCommit.drop headerLen).take (commitLen - headerLen)
    if gitHash ≠ progHash then
      { report := report,
        mismatchReport := some (gitHash, progHash),
        cmds := [GitCmd.writeStagingFile staged, GitCmd.hashObjectCheck],
        exitCode := some 1 }
    else
      { report := report,
        mismatchReport := none,
        cmds := [GitCmd.writeStagingFile staged, GitCmd.hashObjectCheck,
          GitCmd.resetSoftHead, GitCmd.hashObjectWrite, GitCmd.resetSoftTo progHash],
        exitCode := none }

/-! ### Spec-side predicates (stated from the specification's wording,
for comparison with the source-derived functions above). -/

/-- A byte that is a lowercase hex digit character (`0`-`9` or `a`-`f`),
the normalized pattern alphabet. -/
def isHexLowerByte (c : Nat) : Prop := (48 ≤ c ∧ c ≤ 57) ∨ (97 ≤ c ∧ c ≤ 102)

instance (c : Nat) : Decidable (isHexLowerByte c) := by
  unfold isHexLowerByte; infer_instance

/-- The Match Predicate as the specification words it: every hex pair of
the pattern equals the two-lowercase-hex-digit rendering of the
corresponding digest byte, and an odd-length pattern's final character
equals the high nibble of the corresponding byte. -/
def specMatches (P D : List Nat) : Prop :=
  (∀ i, 2 * i + 1 < P.length →
    toHexChar (D.getD i 0 / 16) = P.getD (2 * i) 0 ∧
      toHexChar (D.getD i 0 % 16) = P.getD (2 * i + 1) 0) ∧
  (P.length % 2 = 1 → toHexChar (D.getD (P.length / 2) 0 / 16) = P.getD (P.length - 1) 0)

/-!
## Theorems
-/

/-! ### List helpers -/

theorem take_set_of_le (l : List Nat) (j v m : Nat) (h : m ≤ j) :
    (l.set j v).take m = l.take m := by
  apply List.ext_getElem?
  intro i
  by_cases hi : i < m
  · rw [List.getElem?_take_of_lt hi, List.getElem?_take_of_lt hi,
      List.getElem?_set_ne (by omega)]
  · rw [List.getElem?_eq_none, List.getElem?_eq_none] <;> simp [List.length_take] <;> omega

theorem getD_set_ne (l : List Nat) (j v i : Nat) (h : i ≠ j) :
    (l.set j v).getD i 0 = l.getD i 0 := by
  simp [List.getD, List.getElem?_set_ne (Ne.symm h)]

theorem getD_set_self (l : List Nat) (j v : Nat) (h : j < l.length) :
    (l.set j v).getD j 0 = v := by
  simp [List.getD, List.getElem?_set_self, h]

theorem getD_lt_256 (D : List Nat) (hD : ∀ b ∈ D, b < 256) (j : Nat) : D.getD j 0 < 256 := by
  by_cases hj : j < D.length
  · exact hD _ (List.getD_eq_getElem D 0 hj ▸ List.getElem_mem hj)
  · rw [List.getD_eq_default D 0 (by omega)]; omega

/-! ### Candidate Builder lemmas -/

theorem mytoaAux_length (off : Nat) :
    ∀ (k : Nat) (val : Int) (dst : List Nat), (mytoaAux off k val dst).length = dst.length := by
  intro k
  induction k with
  | zero => intro val dst; rfl
  | succ k ih => intro val dst; rw [mytoaAux, ih, List.length_set]

theorem mytoaAux_getD_frame (off : Nat) :
    ∀ (k : Nat) (val : Int) (dst : List Nat) (j : Nat), j ≤ off ∨ off + k < j →
      (mytoaAux off k val dst).getD j 0 = dst.getD j 0 := by
  intro k
  induction k with
  | zero => intro val dst j _; rfl
  | succ k ih =>
      intro val dst j hj
      rw [mytoaAux, ih _ _ _ (by omega), getD_set_ne _ _ _ _ (by omega)]

theorem mytoaAux_take (off : Nat) :
    ∀ (k : Nat) (val : Int) (dst : List Nat) (m : Nat), m ≤ off + 1 →
      (mytoaAux off k val dst).take m = dst.take m := by
  intro k
  induction k with
  | zero => intro val dst m _; rfl
  | succ k ih =>
      intro val dst m hm
      rw [mytoaAux, ih _ _ _ hm, take_set_of_le _ _ _ _ (by omega)]

theorem mytoaAux_getD_digit (off : Nat) :
    ∀ (k : Nat) (d : Nat) (dst : List Nat) (i : Nat), 1 ≤ i → i ≤ k → off + k < dst.length →
      (mytoaAux off k ((d : Nat) : Int) dst).getD (off + i) 0 = d / 10 ^ (k - i) % 10 + 48 := by
  intro k
  induction k with
  | zero => intro d dst i h1 h2; omega
  | succ k ih =>
      intro d dst i h1 h2 hlen
      rw [mytoaAux]
      have htd : Int.tdiv ((d : Nat) : Int) 10 = (((d / 10 : Nat)) : Int) := by
        simp [Int.tdiv]
      have htm : ((Int.tmod ((d : Nat) : Int) 10) + 48).toNat = d % 10 + 48 := by
        simp [Int.tmod]
        omega
      rw [htd, htm]
      by_cases hik : i = k + 1
      · subst hik
        have hidx : off + (k + 1) = off + k + 1 := by omega
        rw [hidx, mytoaAux_getD_frame off k _ _ _ (by omega),
          getD_set_self _ _ _ (by omega)]
        simp
      · have : i ≤ k := by omega
        rw [ih _ _ _ h1 this (by rw [List.length_set]; omega)]
        have : d / 10 / 10 ^ (k - i) = d / 10 ^ (k + 1 - i) := by
          rw [Nat.div_div_eq_div_mul]
          congr 1
          rw [← pow_succ']
          congr 1
          omega
        rw [this]

/-! ### C4: fixed-width decimal rendering by the Candidate Builder -/

/-- C4 (counterexample): with base field `"19"` (width 2) and adjusted
author timestamp `20` — which fits the width — the claim predicts field
bytes `"20"` (`[50, 48]`), but `mytoa` never writes the field's first
byte, so the candidate's field is `"10"` (`[49, 48]`). -/
theorem alter_full_rendering_cex :
    alter [49, 57, 32, 49, 57] 2 0 20 3 19 = [49, 48, 32, 49, 57] ∧
      [49, 48] ≠ [50, 48] := by decide

/-- C4 (amended): the Candidate Builder writes the digits of the
fixed-width decimal rendering of each adjusted timestamp right-to-left
into positions `1 .. dateLen-1` of the field, but never writes the
field's first byte, which keeps the base buffer's value. -/
theorem alter_writes_digit_positions (base : List Nat) (dateLen aOff cOff : Nat) (aD cD : Nat)
    (hdisj : aOff + dateLen ≤ cOff) (hlen : cOff + dateLen ≤ base.length) (hd : 1 ≤ dateLen) :
    (∀ i, 1 ≤ i → i < dateLen →
      (alter base dateLen aOff ((aD : Nat) : Int) cOff ((cD : Nat) : Int)).getD (aOff + i) 0 =
        aD / 10 ^ (dateLen - 1 - i) % 10 + 48) ∧
    (∀ i, 1 ≤ i → i < dateLen →
      (alter base dateLen aOff ((aD : Nat) : Int) cOff ((cD : Nat) : Int)).getD (cOff + i) 0 =
        cD / 10 ^ (dateLen - 1 - i) % 10 + 48) ∧
    (alter base dateLen aOff ((aD : Nat) : Int) cOff ((cD : Nat) : Int)).getD aOff 0 =
      base.getD aOff 0 ∧
    (alter base dateLen aOff ((aD : Nat) : Int) cOff ((cD : Nat) : Int)).getD cOff 0 =
      base.getD cOff 0 := by
  unfold alter mytoa
  have hil := mytoaAux_length aOff (dateLen - 1) ((aD : Nat) : Int) base
  refine ⟨?_, ?_, ?_, ?_⟩
  · intro i h1 h2
    rw [mytoaAux_getD_frame cOff _ _ _ _ (by omega),
      mytoaAux_getD_digit aOff _ _ _ _ h1 (by omega) (by omega)]
  · intro i h1 h2
    rw [mytoaAux_getD_digit cOff _ _ _ _ h1 (by omega) (by omega)]
  · rw [mytoaAux_getD_frame cOff _ _ _ _ (by omega),
      mytoaAux_getD_frame aOff _ _ _ _ (by omega)]
  · rw [mytoaAux_getD_frame cOff _ _ _ _ (by omega),
      mytoaAux_getD_frame aOff _ _ _ _ (by omega)]

/-- C4 witness: concrete instance of the amended theorem, fields `"19"`
and `"19"` at offsets 0 and 3 of a 5-byte buffer, adjusted to 20/18. -/
theorem alter_writes_digit_positions_witness :
    (0 + 2 ≤ 3 ∧ 3 + 2 ≤ 5 ∧ 1 ≤ 2) ∧
      (alter [49, 57, 32, 49, 57] 2 0 ((20 : Nat) : Int) 3 ((18 : Nat) : Int)).getD 1 0 =
        20 / 10 ^ 0 % 10 + 48 :=
  ⟨by decide,
    (alter_writes_digit_positions [49, 57, 32, 49, 57] 2 0 3 20 18
        (by decide) (by decide) (by decide)).1 1 (by decide) (by decide)⟩

/-! ### C5: frame property of the Candidate Builder -/

/-- C5: the Candidate Builder preserves the buffer length, and every
byte outside the two timestamp field ranges
`[authOffset, authOffset+dateLen)` and `[commOffset, commOffset+dateLen)`
is unchanged from the base buffer. -/
theorem alter_frame (base : List Nat) (dateLen aOff cOff : Nat) (aD cD : Int) :
    (alter base dateLen aOff aD cOff cD).length = base.length ∧
    ∀ j, (j < aOff ∨ aOff + dateLen ≤ j) → (j < cOff ∨ cOff + dateLen ≤ j) →
      (alter base dateLen aOff aD cOff cD).getD j 0 = base.getD j 0 := by
  unfold alter mytoa
  constructor
  · rw [mytoaAux_length, mytoaAux_length]
  · intro j hja hjc
    rw [mytoaAux_getD_frame cOff _ _ _ _ (by omega),
      mytoaAux_getD_frame aOff _ _ _ _ (by omega)]

/-- C5 witness: the byte between the two fields and the length are
unchanged on a concrete buffer. -/
theorem alter_frame_witness :
    ((2 < 0 ∨ 0 + 2 ≤ 2) ∧ (2 < 3 ∨ 3 + 2 ≤ 2)) ∧
      (alter [49, 57, 32, 49, 57] 2 0 20 3 19).getD 2 0 = [49, 57, 32, 49, 57].getD 2 0 ∧
      (alter [49, 57, 32, 49, 57] 2 0 20 3 19).length = [49, 57, 32, 49, 57].length :=
  ⟨by decide,
    (alter_frame [49, 57, 32, 49, 57] 2 0 3 20 19).2 2 (by decide) (by decide),
    (alter_frame [49, 57, 32, 49, 57] 2 0 3 20 19).1⟩

/-! ### C9: dry-run performs no external mutation -/

/-- C9: with the dry-run flag set, `ammend_commit` only prints the
report (deltas, hex digest, progress counter snapshot) and returns:
no file write, no backend command, no exit. -/
theorem dry_run_only_reports (newCommit : List Nat) (headerLen commitLen : Nat) (sha : List Nat)
    (da dc : Int) (count : Nat) (gitHash : List Nat) :
    ammendCommit true newCommit headerLen commitLen sha da dc count gitHash =
      { report := some (da, dc, count / 1000, hexRender sha),
        mismatchReport := none, cmds := [], exitCode := none } := rfl

/-! ### C8: verification mismatch aborts before any mutation -/

/-- C8: in live mode, when git's independently computed hash differs
from the locally computed one, `ammend_commit` reports both digests and
exits with status 1 having issued only the staging write and the
hash check — no head reset and no object rewrite. -/
theorem verification_mismatch_aborts (newCommit : List Nat) (headerLen commitLen : Nat)
    (sha : List Nat) (da dc : Int) (count : Nat) (gitHash : List Nat)
    (h : gitHash ≠ hexRender sha) :
    (ammendCommit false newCommit headerLen commitLen sha da dc count gitHash).exitCode = some 1 ∧
    (ammendCommit false newCommit headerLen commitLen sha da dc count gitHash).mismatchReport =
      some (gitHash, hexRender sha) ∧
    GitCmd.resetSoftHead ∉ (ammendCommit false newCommit headerLen commitLen sha da dc count gitHash).cmds ∧
    GitCmd.hashObjectWrite ∉ (ammendCommit false newCommit headerLen commitLen sha da dc count gitHash).cmds ∧
    ∀ hsh, GitCmd.resetSoftTo hsh ∉ (ammendCommit false newCommit headerLen commitLen sha da dc count gitHash).cmds := by
  simp [ammendCommit, h]

/-- C8 witness: a digest of `[0]` renders as `"00"`, which differs from
an empty backend answer, so the finalizer exits with status 1. -/
theorem verification_mismatch_aborts_witness :
    ([] : List Nat) ≠ hexRender [0] ∧
      (ammendCommit false [] 0 0 [0] 0 0 0 []).exitCode = some 1 :=
  ⟨by decide, (verification_mismatch_aborts [] 0 0 [0] 0 0 0 [] (by decide)).1⟩

/-! ### C10: the empty pattern matches every digest -/

/-- C10: with an empty normalized pattern (`messageLen = 0`, possible
when the pattern comes from `git config`), `shacmp` returns true for
every digest, so a worker accepts the very first candidate index it
evaluates. -/
theorem empty_pattern_matches_all :
    (∀ hexMsg sha : List Nat, shacmp hexMsg sha 0 = true) ∧
    hexMessageOf [] = [] ∧
    (∀ (hexMsg base : List Nat) (dateLen aOff : Nat) (aD : Int) (cOff : Nat) (cD : Int)
      (maxN skip fuel start : Nat), start < maxN →
      workerScan (hitAt hexMsg 0 base dateLen aOff aD cOff cD) maxN skip fuel start =
        some start) := by
  have hall : ∀ hexMsg sha : List Nat, shacmp hexMsg sha 0 = true := fun _ _ => rfl
  refine ⟨hall, rfl, ?_⟩
  intro hexMsg base dateLen aOff aD cOff cD maxN skip fuel start h
  cases fuel with
  | zero => unfold workerScan; rw [if_pos h]; simp [hitAt, hall]
  | succ f => unfold workerScan; rw [if_pos h]; simp [hitAt, hall]

/-- C10 witness: worker starting at index 1 with bound 8 accepts index 1. -/
theorem empty_pattern_matches_all_witness :
    1 < 8 ∧ workerScan (hitAt [] 0 [48] 1 0 0 0 0) 8 8 8 1 = some 1 :=
  ⟨by decide, empty_pattern_matches_all.2.2 [] [48] 1 0 0 0 0 8 8 8 1 (by decide)⟩

/-! ### C6: `getTimeOffset` on malformed commits -/

theorem matchesAt_false_of_len_le (commit search : List Nat) (p : Nat)
    (hp : commit.length ≤ p) (hs : search ≠ []) : matchesAt commit search p = false := by
  rcases search with _ | ⟨c, cs⟩
  · exact absurd rfl hs
  · unfold matchesAt
    rw [List.drop_eq_nil_of_le hp]
    rfl

/-- The 6-byte buffer `"h\0xyz\0"` contains the author marker nowhere. -/
theorem no_author_marker : ∀ p, matchesAt [104, 0, 120, 121, 122, 0] authorMarker p = false := by
  intro p
  by_cases hp : p < 6
  · interval_cases p <;> decide
  · exact matchesAt_false_of_len_le _ _ _ (by simp; omega) (by decide)

/-- The 6-byte buffer `"h\0xyz\0"` contains `"> "` nowhere. -/
theorem no_gt_space : ∀ p, matchesAt [104, 0, 120, 121, 122, 0] [62, 32] p = false := by
  intro p
  by_cases hp : p < 6
  · interval_cases p <;> decide
  · exact matchesAt_false_of_len_le _ _ _ (by simp; omega) (by decide)

/-- A scan loop over a buffer with no match runs to its bound. -/
theorem findFrom_no_match (commit search : List Nat) (bound : Nat)
    (h : ∀ p, matchesAt commit search p = false) :
    ∀ fuel start, bound ≤ fuel + start →
      findFrom commit search bound fuel start = max start bound := by
  intro fuel
  induction fuel with
  | zero =>
      intro start hb
      unfold findFrom
      rw [h start]
      simp only [Bool.false_eq_true, if_false]
      split_ifs <;> omega
  | succ f ih =>
      intro start hb
      unfold findFrom
      rw [h start]
      simp only [Bool.false_eq_true, if_false]
      by_cases hsb : start < bound
      · rw [if_pos hsb, ih (start + 1) (by omega)]
        omega
      · rw [if_neg hsb]
        omega

/-- C6 (counterexample): on a commit buffer that contains the author
marker nowhere, `getTimeOffset` does not fail — it has no failure path —
and returns the offset 12, beyond the 6-byte buffer, and the program
proceeds to search with it. -/
theorem getTimeOffset_returns_offset_cex :
    (∀ p, matchesAt [104, 0, 120, 121, 122, 0] authorMarker p = false) ∧
      getTimeOffset 2 authorMarker [104, 0, 120, 121, 122, 0] = 12 ∧
      List.length [104, 0, 120, 121, 122, 0] < 12 :=
  ⟨no_author_marker, by decide, by decide⟩

/-- C6 (amended): when neither the marker nor the `"> "` delimiter
occurs in the buffer, `getTimeOffset` still returns normally, with an
offset at or past the end of the body (`strlen` of the part after the
header), so no timestamp position is identified and no error is
raised. -/
theorem getTimeOffset_no_failure (headerLen : Nat) (search commit : List Nat)
    (h1 : ∀ p, matchesAt commit search p = false)
    (h2 : ∀ p, matchesAt commit [62, 32] p = false) :
    cstrlen (commit.drop headerLen) ≤ getTimeOffset headerLen search commit := by
  simp only [getTimeOffset]
  rw [findFrom_no_match _ _ _ h1 _ _ (by omega), findFrom_no_match _ _ _ h2 _ _ (by omega)]
  omega

/-- C6 witness: the amended theorem at the concrete marker-free buffer. -/
theorem getTimeOffset_no_failure_witness :
    (∀ p, matchesAt [104, 0, 120, 121, 122, 0] authorMarker p = false) ∧
      cstrlen (List.drop 2 [104, 0, 120, 121, 122, 0]) ≤
        getTimeOffset 2 authorMarker [104, 0, 120, 121, 122, 0] :=
  ⟨no_author_marker, getTimeOffset_no_failure 2 authorMarker _ no_author_marker no_gt_space⟩

/-! ### C2: precomputed-prefix digest path equals from-scratch digest -/

theorem processChunks_small (s : Sha1State) (l : List Nat) (h : l.length < 64) :
    processChunks s l = (s, l) := by
  unfold processChunks
  rw [Nat.div_eq_of_lt h]
  rfl

theorem processChunks_step (s : Sha1State) (l : List Nat) (h : 64 ≤ l.length) :
    processChunks s l = processChunks (compress s (l.take 64)) (l.drop 64) := by
  unfold processChunks
  have h1 : l.length / 64 = (l.drop 64).length / 64 + 1 := by
    rw [List.length_drop]; omega
  rw [h1]
  rfl

/-- Merkle–Damgård streaming: block processing of a concatenation
factors through the intermediate state and remainder. -/
theorem processChunks_append :
    ∀ (N : Nat) (xs : List Nat), xs.length ≤ N → ∀ (s : Sha1State) (ys : List Nat),
      processChunks s (xs ++ ys) =
        processChunks (processChunks s xs).1 ((processChunks s xs).2 ++ ys) := by
  intro N
  induction N with
  | zero =>
      intro xs hx s ys
      have hnil : xs = [] := List.eq_nil_of_length_eq_zero (by omega)
      subst hnil
      rw [processChunks_small s [] (by simp)]
  | succ N ih =>
      intro xs hx s ys
      by_cases h64 : xs.length < 64
      · rw [processChunks_small s xs h64]
      · push_neg at h64
        rw [processChunks_step s (xs ++ ys) (by rw [List.length_append]; omega),
          List.take_append_of_le_length h64, List.drop_append_of_le_length h64,
          ih (xs.drop 64) (by rw [List.length_drop]; omega),
          processChunks_step s xs h64]

/-- `CC_SHA1_Update` twice equals one update of the concatenation. -/
theorem sha1Update_append (ctx : Sha1Ctx) (a b : List Nat) :
    sha1Update (sha1Update ctx a) b = sha1Update ctx (a ++ b) := by
  simp only [sha1Update, List.length_append]
  rw [← List.append_assoc,
    processChunks_append (ctx.buf ++ a).length (ctx.buf ++ a) le_rfl ctx.h b]
  simp [Nat.add_assoc]

/-- The Candidate Builder never touches the bytes before `authOffset`
(the committer field starts at `authOffset + gap`, at or after the
author field). -/
theorem alter_take_prefix (base : List Nat) (dateLen aOff gap : Nat) (aD cD : Int) :
    (alter base dateLen aOff aD (aOff + gap) cD).take aOff = base.take aOff := by
  unfold alter mytoa
  rw [mytoaAux_take _ _ _ _ _ (by omega), mytoaAux_take _ _ _ _ _ (by omega)]

/-- C2: for every candidate the precomputed-prefix path — absorb the
base buffer's bytes `[0, authOffset)` once, copy that state, absorb the
candidate's bytes from `authOffset` on, finalize — produces the same
digest as a from-scratch SHA-1 of the whole candidate buffer. -/
theorem digest_prefix_path_eq (base : List Nat) (dateLen aOff gap : Nat) (aD cD : Int) :
    sha1Final (sha1Update (sha1Update sha1Init (base.take aOff))
        ((alter base dateLen aOff aD (aOff + gap) cD).drop aOff)) =
      sha1 (alter base dateLen aOff aD (aOff + gap) cD) := by
  rw [← alter_take_prefix base dateLen aOff gap aD cD, sha1Update_append]
  unfold sha1
  rw [List.take_append_drop]

/-! ### C3: exact semantics of the match predicate -/

theorem hexCharVal_toHexChar : ∀ v, v < 16 → hexCharVal (toHexChar v) = v := by decide

theorem toHexChar_hexCharVal (c : Nat) (hc : isHexLowerByte c) :
    toHexChar (hexCharVal c) = c := by
  unfold isHexLowerByte at hc
  unfold hexCharVal toHexChar
  split_ifs <;> omega

theorem hexCharVal_lt (c : Nat) (hc : isHexLowerByte c) : hexCharVal c < 16 := by
  unfold isHexLowerByte at hc
  unfold hexCharVal
  split_ifs <;> omega

theorem hex_getD (P : List Nat) (hhex : ∀ c ∈ P, isHexLowerByte c) (i : Nat)
    (h : i < P.length) : isHexLowerByte (P.getD i 0) := by
  rw [List.getD_eq_getElem _ _ h]
  exact hhex _ (List.getElem_mem h)

/-- Byte `j` of the decoded pattern is the value of hex pair `2j, 2j+1`. -/
theorem hexMessageOf_getD_pair :
    ∀ (P : List Nat) (j : Nat), 2 * j + 1 < P.length →
      (hexMessageOf P).getD j 0 =
        16 * hexCharVal (P.getD (2 * j) 0) + hexCharVal (P.getD (2 * j + 1) 0) := by
  intro P
  induction P using hexMessageOf.induct with
  | case1 => intro j h; simp at h
  | case2 c => intro j h; simp only [List.length_cons, List.length_nil] at h; omega
  | case3 c1 c2 rest ih =>
      intro j h
      cases j with
      | zero => simp [hexMessageOf]
      | succ j =>
          have h2 : 2 * j + 1 < rest.length := by
            simp only [List.length_cons] at h; omega
          have e1 : 2 * (j + 1) = 2 * j + 1 + 1 := by omega
          have e2 : 2 * (j + 1) + 1 = 2 * j + 1 + 1 + 1 := by omega
          simp only [hexMessageOf, e1, e2, List.getD_cons_succ]
          exact ih j h2

/-- For an odd-length pattern, the final decoded byte is the value of
the final hex character. -/
theorem hexMessageOf_getD_last :
    ∀ (P : List Nat), P.length % 2 = 1 →
      (hexMessageOf P).getD (P.length / 2) 0 = hexCharVal (P.getD (P.length - 1) 0) := by
  intro P
  induction P using hexMessageOf.induct with
  | case1 => intro h; simp at h
  | case2 c => intro _; simp [hexMessageOf]
  | case3 c1 c2 rest ih =>
      intro h
      simp only [List.length_cons] at h ⊢
      have hodd : rest.length % 2 = 1 := by omega
      have hge : 1 ≤ rest.length := by omega
      have e1 : (rest.length + 1 + 1) / 2 = rest.length / 2 + 1 := by omega
      have e2 : rest.length + 1 + 1 - 1 = rest.length - 1 + 1 + 1 := by omega
      simp only [hexMessageOf, e1, e2, List.getD_cons_succ]
      exact ih hodd

/-- Loop invariant characterization of `shacmpAux` at even positions:
with enough fuel, the loop from `i = 2k` accepts exactly when all
remaining full-byte comparisons and the final-nibble comparison (odd
length) succeed. -/
theorem shacmpAux_true_iff (hexMsg D : List Nat) (len : Nat) :
    ∀ (fuel i k : Nat), i = 2 * k → len ≤ 2 * fuel + i →
      (shacmpAux hexMsg D len fuel i = true ↔
        ((∀ j, k ≤ j → 2 * j + 1 < len → hexMsg.getD j 0 = D.getD j 0) ∧
         (len % 2 = 1 → 2 * k ≤ len - 1 →
           hexMsg.getD (len / 2) 0 = D.getD (len / 2) 0 / 16))) := by
  intro fuel
  induction fuel with
  | zero =>
      intro i k hik hk
      constructor
      · intro _
        exact ⟨fun j hj hjl => by omega, fun hodd hguard => by omega⟩
      · intro _
        rfl
  | succ f ih =>
      intro i k hik hk
      unfold shacmpAux
      by_cases hc1 : ((i : Int) < (len : Int) - 1)
      · rw [if_pos hc1]
        have hlt : i + 2 ≤ len := by push_cast at hc1; omega
        have hidx : i / 2 = k := by omega
        rw [hidx]
        by_cases heq : hexMsg.getD k 0 = D.getD k 0
        · rw [if_pos heq, ih (i + 2) (k + 1) (by omega) (by omega)]
          constructor
          · rintro ⟨he, ho⟩
            refine ⟨fun j hj hjl => ?_, fun hodd hguard => ho hodd (by omega)⟩
            rcases Nat.eq_or_lt_of_le hj with hj' | hj'
            · rw [← hj']; exact heq
            · exact he j (by omega) hjl
          · rintro ⟨he, ho⟩
            exact ⟨fun j hj hjl => he j (by omega) hjl, fun hodd hguard => ho hodd (by omega)⟩
        · rw [if_neg heq]
          simp only [Bool.false_eq_true, false_iff, not_and]
          intro he
          exact absurd (he k le_rfl (by omega)) heq
      · rw [if_neg hc1]
        by_cases hc2 : ((i : Int) = (len : Int) - 1)
        · rw [if_pos hc2]
          have hlen : len = 2 * k + 1 := by push_cast at hc2; omega
          have hidx : i / 2 = k := by omega
          have hlen2 : len / 2 = k := by omega
          rw [hidx, hlen2]
          constructor
          · intro hb
            exact ⟨fun j hj hjl => by omega, fun _ _ => of_decide_eq_true hb⟩
          · rintro ⟨_, h2⟩
            exact decide_eq_true (h2 (by omega) (by omega))
        · rw [if_neg hc2]
          have hlen : len ≤ 2 * k := by push_cast at hc1 hc2; omega
          constructor
          · intro _
            exact ⟨fun j hj hjl => by omega, fun hodd hguard => by omega⟩
          · intro _
            rfl

/-- One pattern byte agrees with a digest byte iff the rendering of the
digest byte agrees with both pattern characters. -/
theorem byte_pair_iff (c1 c2 b : Nat) (h1 : isHexLowerByte c1) (h2 : isHexLowerByte c2)
    (hb : b < 256) :
    16 * hexCharVal c1 + hexCharVal c2 = b ↔
      (toHexChar (b / 16) = c1 ∧ toHexChar (b % 16) = c2) := by
  have v1 := hexCharVal_lt c1 h1
  have v2 := hexCharVal_lt c2 h2
  constructor
  · rintro rfl
    have e1 : (16 * hexCharVal c1 + hexCharVal c2) / 16 = hexCharVal c1 := by omega
    have e2 : (16 * hexCharVal c1 + hexCharVal c2) % 16 = hexCharVal c2 := by omega
    rw [e1, e2, toHexChar_hexCharVal c1 h1, toHexChar_hexCharVal c2 h2]
    exact ⟨rfl, rfl⟩
  · rintro ⟨e1, e2⟩
    rw [← e1, ← e2, hexCharVal_toHexChar _ (by omega), hexCharVal_toHexChar _ (by omega)]
    omega

/-- The final-nibble comparison agrees with the rendering of the high
nibble. -/
theorem byte_nibble_iff (c b : Nat) (h1 : isHexLowerByte c) (hb : b < 256) :
    hexCharVal c = b / 16 ↔ toHexChar (b / 16) = c := by
  constructor
  · intro h; rw [← h, toHexChar_hexCharVal c h1]
  · intro h; rw [← h, hexCharVal_toHexChar _ (by omega)]

/-- C3: for a normalized hex pattern `P` and a digest `D` of bytes,
`shacmp` accepts exactly when every hex pair of `P` equals the
two-lowercase-hex-digit rendering of the corresponding byte of `D`,
and — for an odd-length `P` — the final character of `P` equals the
high nibble of the corresponding byte. -/
theorem shacmp_spec_iff (P D : List Nat) (hhex : ∀ c ∈ P, isHexLowerByte c)
    (hD : ∀ b ∈ D, b < 256) :
    shacmp (hexMessageOf P) D P.length = true ↔ specMatches P D := by
  unfold shacmp
  rw [shacmpAux_true_iff (hexMessageOf P) D P.length P.length 0 0 (by omega) (by omega)]
  unfold specMatches
  constructor
  · rintro ⟨he, ho⟩
    constructor
    · intro i hi
      have hb := getD_lt_256 D hD i
      have hv := he i (by omega) hi
      rw [hexMessageOf_getD_pair P i hi] at hv
      exact (byte_pair_iff _ _ _ (hex_getD P hhex _ (by omega)) (hex_getD P hhex _ hi) hb).mp hv
    · intro hodd
      have hh := ho hodd (by omega)
      rw [hexMessageOf_getD_last P hodd] at hh
      have hb := getD_lt_256 D hD (P.length / 2)
      exact (byte_nibble_iff _ _ (hex_getD P hhex _ (by omega)) hb).mp hh
  · rintro ⟨hs, hso⟩
    constructor
    · intro j _ hjl
      rw [hexMessageOf_getD_pair P j hjl]
      have hb := getD_lt_256 D hD j
      exact (byte_pair_iff _ _ _ (hex_getD P hhex _ (by omega)) (hex_getD P hhex _ hjl)
        hb).mpr (hs j hjl)
    · intro hodd _
      rw [hexMessageOf_getD_last P hodd]
      have hb := getD_lt_256 D hD (P.length / 2)
      exact (byte_nibble_iff _ _ (hex_getD P hhex _ (by omega)) hb).mpr (hso hodd)

/-- C3 witness: pattern `"ab"` against a digest starting `0xab`. -/
theorem shacmp_spec_iff_witness :
    (∀ c ∈ [97, 98], isHexLowerByte c) ∧ (∀ b ∈ 171 :: List.replicate 19 0, b < 256) ∧
      (shacmp (hexMessageOf [97, 98]) (171 :: List.replicate 19 0) (List.length [97, 98]) = true ↔
        specMatches [97, 98] (171 :: List.replicate 19 0)) :=
  ⟨by decide, by decide, shacmp_spec_iff [97, 98] (171 :: List.replicate 19 0)
    (by decide) (by decide)⟩

/-! ### C7: exhaustion terminates with no finalizer invocation -/

/-- A worker whose candidate test fails on every index it can visit
returns `none` (its loop runs to the bound and exits). -/
theorem workerScan_none (hit : Nat → Bool) (maxN skip : Nat)
    (h : ∀ m, m < maxN → 1 ≤ m → hit m = false) :
    ∀ (fuel n : Nat), 1 ≤ n → workerScan hit maxN skip fuel n = none := by
  intro fuel
  induction fuel with
  | zero =>
      intro n hn
      unfold workerScan
      by_cases h1 : n < maxN
      · rw [if_pos h1, h n h1 hn]
        simp
      · rw [if_neg h1]
  | succ f ih =>
      intro n hn
      unfold workerScan
      by_cases h1 : n < maxN
      · rw [if_pos h1, h n h1 hn]
        simp only [Bool.false_eq_true, if_false]
        exact ih (n + skip) (by omega)
      · rw [if_neg h1]

/-- C7: when no candidate with index in `[1, spiral_max radius)` matches
the pattern, every one of the 8 workers exhausts its range and returns
`none`, the run outcome is `exhausted`, the Finalizer is never invoked,
and exhaustion is distinct from every success outcome. -/
theorem search_exhausts (hexMsg : List Nat) (msgLen : Nat) (base : List Nat)
    (dateLen aOff : Nat) (aD : Int) (cOff : Nat) (cD : Int) (radius : Nat)
    (h : ∀ n, n < spiralMax radius → 1 ≤ n →
      hitAt hexMsg msgLen base dateLen aOff aD cOff cD n = false) :
    runSearch (hitAt hexMsg msgLen base dateLen aOff aD cOff cD) (spiralMax radius) =
      RunResult.exhausted ∧
    (∀ i, i < 8 → workerScan (hitAt hexMsg msgLen base dateLen aOff aD cOff cD)
      (spiralMax radius) 8 (spiralMax radius) (i + 1) = none) ∧
    finalizerInvoked
      (runSearch (hitAt hexMsg msgLen base dateLen aOff aD cOff cD) (spiralMax radius)) =
      false ∧
    (∀ m, RunResult.exhausted ≠ RunResult.success m) := by
  have hw : ∀ i : Nat, workerScan (hitAt hexMsg msgLen base dateLen aOff aD cOff cD)
      (spiralMax radius) 8 (spiralMax radius) (i + 1) = none :=
    fun i => workerScan_none _ _ _ h _ _ (by omega)
  have hnil : (List.range 8).filterMap
      (fun i => workerScan (hitAt hexMsg msgLen base dateLen aOff aD cOff cD)
        (spiralMax radius) 8 (spiralMax radius) (i + 1)) = [] := by
    simp [hw]
  have hrun : runSearch (hitAt hexMsg msgLen base dateLen aOff aD cOff cD)
      (spiralMax radius) = RunResult.exhausted := by
    unfold runSearch
    rw [hnil]
  refine ⟨hrun, fun i _ => hw i, by rw [hrun]; rfl, fun m h' => by cases h'⟩

set_option maxRecDepth 400000 in
set_option maxHeartbeats 2000000 in
/-- C7 witness: a concrete base buffer and pattern byte `0xab` that no
candidate within radius 1 produces as the digest's first byte. -/
theorem search_exhausts_witness :
    (∀ n, n < spiralMax 1 → 1 ≤ n →
      hitAt [171] 2 [48, 49, 32, 50, 51, 32, 97, 98] 2 0 25 3 26 n = false) ∧
      runSearch (hitAt [171] 2 [48, 49, 32, 50, 51, 32, 97, 98] 2 0 25 3 26) (spiralMax 1) =
        RunResult.exhausted :=
  (fun hyp => ⟨hyp, (search_exhausts [171] 2 [48, 49, 32, 50, 51, 32, 97, 98]
    2 0 25 3 26 1 hyp).1⟩) (by decide)


/-! ### C1: the spiral enumeration -/

theorem isqrt_le (n : Nat) : isqrt n * isqrt n ≤ n :=
  Nat.findGreatest_spec (P := fun k => k * k ≤ n) (Nat.zero_le n) (by simp)

theorem lt_isqrt_succ (n : Nat) : n < (isqrt n + 1) * (isqrt n + 1) := by
  by_contra hcon
  push_neg at hcon
  have hk : isqrt n + 1 ≤ n :=
    le_trans (Nat.le_mul_of_pos_left _ (by omega)) hcon
  exact Nat.findGreatest_is_greatest (Nat.lt_succ_self _) hk hcon

theorem le_isqrt (m n : Nat) : m ≤ isqrt n ↔ m * m ≤ n := by
  constructor
  · intro h
    exact le_trans (Nat.mul_le_mul h h) (isqrt_le n)
  · intro h
    by_contra hcon
    push_neg at hcon
    have h1 := lt_isqrt_succ n
    have h2 : (isqrt n + 1) * (isqrt n + 1) ≤ m * m := Nat.mul_le_mul (by omega) (by omega)
    omega

theorem isqrt_lt (n m : Nat) : isqrt n < m ↔ n < m * m := by
  constructor
  · intro h
    exact lt_of_lt_of_le (lt_isqrt_succ n) (Nat.mul_le_mul (by omega) (by omega))
  · intro h
    by_contra hcon
    push_neg at hcon
    have := (le_isqrt m n).mp hcon
    omega

theorem isqrt_mono {m n : Nat} (h : m ≤ n) : isqrt m ≤ isqrt n :=
  (le_isqrt _ _).mpr (le_trans (isqrt_le m) h)

/-- `(2s-1)² + 8s = (2s+1)²` for `s ≥ 1` (the ring of radius `s` has
`8s` points). -/
theorem ring_key (s : Nat) (hs : 1 ≤ s) : (2 * s - 1) ^ 2 + 8 * s = (2 * s + 1) ^ 2 := by
  obtain ⟨u, rfl⟩ : ∃ u, s = u + 1 := ⟨s - 1, by omega⟩
  have e : 2 * (u + 1) - 1 = 2 * u + 1 := by omega
  rw [e]
  ring

theorem spiral_ring_bounds (n : Nat) (hn : 1 ≤ n) :
    1 ≤ (isqrt n + 1) / 2 ∧
      (2 * ((isqrt n + 1) / 2) - 1) ^ 2 ≤ n ∧ n < (2 * ((isqrt n + 1) / 2) + 1) ^ 2 := by
  have h1 : 1 ≤ isqrt n := (le_isqrt 1 n).mpr (by omega)
  have h2 := isqrt_le n
  have h3 := lt_isqrt_succ n
  refine ⟨by omega, ?_, ?_⟩
  · rw [pow_two]
    exact le_trans (Nat.mul_le_mul (by omega) (by omega)) h2
  · rw [pow_two]
    exact lt_of_lt_of_le h3 (Nat.mul_le_mul (by omega) (by omega))

theorem isqrt_band (s n : Nat) (hs : 1 ≤ s) (h1 : (2 * s - 1) ^ 2 ≤ n)
    (h2 : n < (2 * s + 1) ^ 2) : (isqrt n + 1) / 2 = s := by
  rw [pow_two] at h1 h2
  have ha : 2 * s - 1 ≤ isqrt n := (le_isqrt _ _).mpr h1
  have hb : isqrt n < 2 * s + 1 := (isqrt_lt _ _).mpr h2
  omega


/-- Closed forms of `spiralPair` on each of the four sides of ring `s`
(`r` is the offset along the side). -/
theorem spiralPair_side0 (s r n : Nat) (hs : 1 ≤ s) (hr : r < 2 * s)
    (hn : n = (2 * s - 1) ^ 2 + r) :
    spiralPair n = ((s : Int), (r : Int) - s + 1) := by
  have key := ring_key s hs
  have hsn : (isqrt n + 1) / 2 = s := isqrt_band s n hs (by omega) (by omega)
  have hlt : n - (2 * s - 1) ^ 2 = r := by omega
  have hldiv : r / (2 * s) = 0 := Nat.div_eq_of_lt hr
  simp only [spiralPair, hsn, hlt, hldiv]
  norm_num

theorem spiralPair_side1 (s r n : Nat) (hs : 1 ≤ s) (hr : r < 2 * s)
    (hn : n = (2 * s - 1) ^ 2 + 2 * s + r) :
    spiralPair n = (-((r : Int) - s + 1), (s : Int)) := by
  have key := ring_key s hs
  have hsn : (isqrt n + 1) / 2 = s := isqrt_band s n hs (by omega) (by omega)
  have hlt : n - (2 * s - 1) ^ 2 = 2 * s * 1 + r := by omega
  have hldiv : (2 * s * 1 + r) / (2 * s) = 1 := by
    rw [Nat.mul_add_div (by omega), Nat.div_eq_of_lt hr]
  simp only [spiralPair, hsn, hlt, hldiv]
  norm_num

theorem spiralPair_side2 (s r n : Nat) (hs : 1 ≤ s) (hr : r < 2 * s)
    (hn : n = (2 * s - 1) ^ 2 + 4 * s + r) :
    spiralPair n = (-(s : Int), -((r : Int) - s + 1)) := by
  have key := ring_key s hs
  have hsn : (isqrt n + 1) / 2 = s := isqrt_band s n hs (by omega) (by omega)
  have hlt : n - (2 * s - 1) ^ 2 = 2 * s * 2 + r := by omega
  have hldiv : (2 * s * 2 + r) / (2 * s) = 2 := by
    rw [Nat.mul_add_div (by omega), Nat.div_eq_of_lt hr]
  simp only [spiralPair, hsn, hlt, hldiv]
  norm_num

theorem spiralPair_side3 (s r n : Nat) (hs : 1 ≤ s) (hr : r < 2 * s)
    (hn : n = (2 * s - 1) ^ 2 + 6 * s + r) :
    spiralPair n = ((r : Int) - s + 1, -(s : Int)) := by
  have key := ring_key s hs
  have hsn : (isqrt n + 1) / 2 = s := isqrt_band s n hs (by omega) (by omega)
  have hlt : n - (2 * s - 1) ^ 2 = 2 * s * 3 + r := by omega
  have hldiv : (2 * s * 3 + r) / (2 * s) = 3 := by
    rw [Nat.mul_add_div (by omega), Nat.div_eq_of_lt hr]
  simp only [spiralPair, hsn, hlt, hldiv]
  norm_num

/-- Chebyshev norm and spiral index of a point on each side of ring `s`. -/
theorem chebIndex_side0 (x y : Int) (s r : Nat) (hs : 1 ≤ s) (hr : r < 2 * s)
    (hx : x = (s : Int)) (hy : y = (r : Int) - s + 1) :
    chebyshev (x, y) = s ∧ spiralIndex (x, y) = (2 * s - 1) ^ 2 + r := by
  have hm : max x.natAbs y.natAbs = s := by omega
  refine ⟨by simp only [chebyshev]; omega, ?_⟩
  simp only [spiralIndex, hm]
  rw [if_pos (by omega : x = (s : Int) ∧ -(s : Int) < y)]
  omega

theorem chebIndex_side1 (x y : Int) (s r : Nat) (hs : 1 ≤ s) (hr : r < 2 * s)
    (hx : x = -((r : Int) - s + 1)) (hy : y = (s : Int)) :
    chebyshev (x, y) = s ∧ spiralIndex (x, y) = (2 * s - 1) ^ 2 + 2 * s + r := by
  have hm : max x.natAbs y.natAbs = s := by omega
  refine ⟨by simp only [chebyshev]; omega, ?_⟩
  simp only [spiralIndex, hm]
  rw [if_neg (by omega : ¬(x = (s : Int) ∧ -(s : Int) < y)),
    if_pos (by omega : y = (s : Int))]
  omega

theorem chebIndex_side2 (x y : Int) (s r : Nat) (hs : 1 ≤ s) (hr : r < 2 * s)
    (hx : x = -(s : Int)) (hy : y = -((r : Int) - s + 1)) :
    chebyshev (x, y) = s ∧ spiralIndex (x, y) = (2 * s - 1) ^ 2 + 4 * s + r := by
  have hm : max x.natAbs y.natAbs = s := by omega
  refine ⟨by simp only [chebyshev]; omega, ?_⟩
  simp only [spiralIndex, hm]
  rw [if_neg (by omega : ¬(x = (s : Int) ∧ -(s : Int) < y)),
    if_neg (by omega : ¬(y = (s : Int))), if_pos (by omega : x = -(s : Int))]
  omega

theorem chebIndex_side3 (x y : Int) (s r : Nat) (hs : 1 ≤ s) (hr : r < 2 * s)
    (hx : x = (r : Int) - s + 1) (hy : y = -(s : Int)) :
    chebyshev (x, y) = s ∧ spiralIndex (x, y) = (2 * s - 1) ^ 2 + 6 * s + r := by
  have hm : max x.natAbs y.natAbs = s := by omega
  refine ⟨by simp only [chebyshev]; omega, ?_⟩
  simp only [spiralIndex, hm]
  rw [if_neg (by omega : ¬(x = (s : Int) ∧ -(s : Int) < y)),
    if_neg (by omega : ¬(y = (s : Int))), if_neg (by omega : ¬(x = -(s : Int)))]
  omega

/-- `spiralPair n` lies on ring `(isqrt n + 1)/2` and `spiralIndex`
inverts `spiralPair` for every index `n ≥ 1`. -/
theorem spiralPair_spec (n : Nat) (hn : 1 ≤ n) :
    chebyshev (spiralPair n) = (isqrt n + 1) / 2 ∧ spiralIndex (spiralPair n) = n := by
  obtain ⟨hs1, hb1, hb2⟩ := spiral_ring_bounds n hn
  have key := ring_key ((isqrt n + 1) / 2) hs1
  obtain ⟨L, M, hLM, hmod, hdiv⟩ :
      ∃ L M, 2 * ((isqrt n + 1) / 2) * L + M = n - (2 * ((isqrt n + 1) / 2) - 1) ^ 2 ∧
        M < 2 * ((isqrt n + 1) / 2) ∧ L < 4 := by
    refine ⟨(n - (2 * ((isqrt n + 1) / 2) - 1) ^ 2) / (2 * ((isqrt n + 1) / 2)),
      (n - (2 * ((isqrt n + 1) / 2) - 1) ^ 2) % (2 * ((isqrt n + 1) / 2)),
      Nat.div_add_mod _ _, Nat.mod_lt _ (by omega), ?_⟩
    have h8 : n - (2 * ((isqrt n + 1) / 2) - 1) ^ 2 < 4 * (2 * ((isqrt n + 1) / 2)) := by
      omega
    exact (Nat.div_lt_iff_lt_mul (by omega)).mpr h8
  interval_cases L
  · rw [spiralPair_side0 ((isqrt n + 1) / 2) M n hs1 hmod (by omega)]
    have h := chebIndex_side0 _ _ ((isqrt n + 1) / 2) M hs1 hmod rfl rfl
    exact ⟨h.1, by rw [h.2]; omega⟩
  · rw [spiralPair_side1 ((isqrt n + 1) / 2) M n hs1 hmod (by omega)]
    have h := chebIndex_side1 _ _ ((isqrt n + 1) / 2) M hs1 hmod rfl rfl
    exact ⟨h.1, by rw [h.2]; omega⟩
  · rw [spiralPair_side2 ((isqrt n + 1) / 2) M n hs1 hmod (by omega)]
    have h := chebIndex_side2 _ _ ((isqrt n + 1) / 2) M hs1 hmod rfl rfl
    exact ⟨h.1, by rw [h.2]; omega⟩
  · rw [spiralPair_side3 ((isqrt n + 1) / 2) M n hs1 hmod (by omega)]
    have h := chebIndex_side3 _ _ ((isqrt n + 1) / 2) M hs1 hmod rfl rfl
    exact ⟨h.1, by rw [h.2]; omega⟩

/-- `spiralPair` inverts `spiralIndex` on every point off the origin,
and the index lies in the ring's index bracket. -/
theorem spiralIndex_spec (x y : Int) (hp : 1 ≤ chebyshev (x, y)) :
    spiralPair (spiralIndex (x, y)) = (x, y) ∧
    (2 * chebyshev (x, y) - 1) ^ 2 ≤ spiralIndex (x, y) ∧
    spiralIndex (x, y) < (2 * chebyshev (x, y) + 1) ^ 2 := by
  have hch : chebyshev (x, y) = max x.natAbs y.natAbs := rfl
  rw [hch] at hp ⊢
  have key := ring_key (max x.natAbs y.natAbs) hp
  have hxm : x.natAbs ≤ max x.natAbs y.natAbs := le_max_left _ _
  have hym : y.natAbs ≤ max x.natAbs y.natAbs := le_max_right _ _
  by_cases hc0 : (x = ((max x.natAbs y.natAbs : Nat) : Int) ∧ -((max x.natAbs y.natAbs : Nat) : Int) < y)
  · have hval : spiralIndex (x, y) = (2 * max x.natAbs y.natAbs - 1) ^ 2 +
        (y + max x.natAbs y.natAbs - 1).toNat := by
      simp only [spiralIndex]
      rw [if_pos hc0]
    have hr : (y + ((max x.natAbs y.natAbs : Nat) : Int) - 1).toNat < 2 * max x.natAbs y.natAbs := by
      omega
    rw [hval, spiralPair_side0 _ _ _ hp hr rfl]
    refine ⟨?_, by omega, by omega⟩
    rw [Prod.mk.injEq]
    exact ⟨by omega, by omega⟩
  · by_cases hc1 : (y = ((max x.natAbs y.natAbs : Nat) : Int))
    · have hval : spiralIndex (x, y) = (2 * max x.natAbs y.natAbs - 1) ^ 2 +
          2 * max x.natAbs y.natAbs + (((max x.natAbs y.natAbs : Nat) : Int) - 1 - x).toNat := by
        simp only [spiralIndex]
        rw [if_neg hc0, if_pos hc1]
      have hr : (((max x.natAbs y.natAbs : Nat) : Int) - 1 - x).toNat < 2 * max x.natAbs y.natAbs := by
        omega
      rw [hval, spiralPair_side1 _ _ _ hp hr rfl]
      refine ⟨?_, by omega, by omega⟩
      rw [Prod.mk.injEq]
      exact ⟨by omega, by omega⟩
    · by_cases hc2 : (x = -((max x.natAbs y.natAbs : Nat) : Int))
      · have hval : spiralIndex (x, y) = (2 * max x.natAbs y.natAbs - 1) ^ 2 +
            4 * max x.natAbs y.natAbs + (((max x.natAbs y.natAbs : Nat) : Int) - 1 - y).toNat := by
          simp only [spiralIndex]
          rw [if_neg hc0, if_neg hc1, if_pos hc2]
        have hr : (((max x.natAbs y.natAbs : Nat) : Int) - 1 - y).toNat < 2 * max x.natAbs y.natAbs := by
          omega
        rw [hval, spiralPair_side2 _ _ _ hp hr rfl]
        refine ⟨?_, by omega, by omega⟩
        rw [Prod.mk.injEq]
        exact ⟨by omega, by omega⟩
      · have hval : spiralIndex (x, y) = (2 * max x.natAbs y.natAbs - 1) ^ 2 +
            6 * max x.natAbs y.natAbs + (x + max x.natAbs y.natAbs - 1).toNat := by
          simp only [spiralIndex]
          rw [if_neg hc0, if_neg hc1, if_neg hc2]
        have hr : (x + ((max x.natAbs y.natAbs : Nat) : Int) - 1).toNat < 2 * max x.natAbs y.natAbs := by
          omega
        rw [hval, spiralPair_side3 _ _ _ hp hr rfl]
        refine ⟨?_, by omega, by omega⟩
        rw [Prod.mk.injEq]
        exact ⟨by omega, by omega⟩

/-- The corner `(R, -R)` is the point the spiral visits at index
`spiral_max R` — exactly the index the search loop excludes. -/
theorem spiralIndex_corner (R : Nat) (hR : 1 ≤ R) :
    spiralIndex ((R : Int), -(R : Int)) = spiralMax R := by
  have key := ring_key R hR
  have key2 : (2 * R + 1) ^ 2 = (R * 2 + 1) * (R * 2 + 1) := by ring
  have hm : max ((R : Int)).natAbs (-(R : Int)).natAbs = R := by omega
  simp only [spiralIndex, hm, spiralMax, true_and, lt_self_iff_false, if_false]
  rw [if_neg (by omega : ¬(-(R : Int) = (R : Int))),
    if_neg (by omega : ¬((R : Int) = -(R : Int)))]
  omega

/-- C1 (amended): over indices `n ∈ [1, spiral_max R)` the spiral
enumeration is injective, lands in the punctured square
`{p | 1 ≤ ‖p‖_∞ ≤ R} \\ {(R, -R)}`, reaches every point of that set, and
visits points in non-decreasing Chebyshev distance from the origin.
The origin (index 0 is excluded) and the corner `(R, -R)` (its index
`spiral_max R` is excluded by the loop bound) are never visited. -/
theorem spiral_enumeration (R : Nat) (hR : 1 ≤ R) :
    (∀ m n, 1 ≤ m → m < spiralMax R → 1 ≤ n → n < spiralMax R →
      spiralPair m = spiralPair n → m = n) ∧
    (∀ n, 1 ≤ n → n < spiralMax R →
      1 ≤ chebyshev (spiralPair n) ∧ chebyshev (spiralPair n) ≤ R ∧
        spiralPair n ≠ ((R : Int), -(R : Int))) ∧
    (∀ p : Int × Int, 1 ≤ chebyshev p → chebyshev p ≤ R → p ≠ ((R : Int), -(R : Int)) →
      ∃ n, 1 ≤ n ∧ n < spiralMax R ∧ spiralPair n = p) ∧
    (∀ m n, 1 ≤ m → m ≤ n → chebyshev (spiralPair m) ≤ chebyshev (spiralPair n)) := by
  have keyR := ring_key R hR
  have key2 : (2 * R + 1) ^ 2 = (R * 2 + 1) * (R * 2 + 1) := by ring
  have hsmax : spiralMax R = (R * 2 + 1) * (R * 2 + 1) - 1 := rfl
  have hchebR : chebyshev ((R : Int), -(R : Int)) = R := by
    simp only [chebyshev]
    omega
  refine ⟨?_, ?_, ?_, ?_⟩
  · intro m n h1m h2m h1n h2n heq
    have am := (spiralPair_spec m h1m).2
    have an := (spiralPair_spec n h1n).2
    rw [← am, ← an, heq]
  · intro n h1 h2
    obtain ⟨hs1, _, _⟩ := spiral_ring_bounds n h1
    have hc := (spiralPair_spec n h1).1
    have e3 : (2 * R + 1) ^ 2 = (2 * R + 1) * (2 * R + 1) := pow_two _
    have hlt : n < (2 * R + 1) * (2 * R + 1) := by omega
    have hq : isqrt n < 2 * R + 1 := (isqrt_lt _ _).mpr hlt
    refine ⟨by omega, by omega, ?_⟩
    intro hEq
    have hidx := (spiralPair_spec n h1).2
    rw [hEq, spiralIndex_corner R hR] at hidx
    omega
  · intro p h1 h2 hne
    obtain ⟨x, y⟩ := p
    have b := spiralIndex_spec x y h1
    have hpow : (2 * chebyshev (x, y) - 1) ^ 2 = (2 * chebyshev (x, y) - 1) *
        (2 * chebyshev (x, y) - 1) := pow_two _
    have h11 : 1 * 1 ≤ (2 * chebyshev (x, y) - 1) * (2 * chebyshev (x, y) - 1) :=
      Nat.mul_le_mul (by omega) (by omega)
    refine ⟨spiralIndex (x, y), by omega, ?_, b.1⟩
    by_cases hsR : chebyshev (x, y) = R
    · have hne2 : spiralIndex (x, y) ≠ spiralMax R := by
        intro hcontra
        apply hne
        have hbR := spiralIndex_spec (R : Int) (-(R : Int)) (by omega)
        calc (x, y) = spiralPair (spiralIndex (x, y)) := b.1.symm
          _ = spiralPair (spiralIndex ((R : Int), -(R : Int))) := by
              rw [hcontra, spiralIndex_corner R hR]
          _ = ((R : Int), -(R : Int)) := hbR.1
      have hub := b.2.2
      rw [hsR] at hub
      omega
    · have hmono2 : (2 * chebyshev (x, y) + 1) ^ 2 ≤ (2 * R - 1) ^ 2 :=
        Nat.pow_le_pow_left (by omega) 2
      have hub := b.2.2
      omega
  · intro m n h1 hmn
    have am := (spiralPair_spec m h1).1
    have an := (spiralPair_spec n (by omega)).1
    have := isqrt_mono hmn
    omega

/-- C1 (counterexample): the corner `(1, -1)` has Chebyshev norm 1 but
is visited at no index in `[1, spiral_max 1) = [1, 8)` — its index is 8,
the excluded bound — so the enumeration over that range is not onto the
square of radius 1 (the origin is missed as well). -/
theorem spiral_enumeration_cex :
    chebyshev (1, -1) ≤ 1 ∧
      (∀ n, n < spiralMax 1 → ¬(1 ≤ n ∧ spiralPair n = ((1 : Int), (-1 : Int)))) := by
  decide

/-- C1 witness: at radius 1, the point `(1, 1)` is reached by some index
in `[1, 8)`. -/
theorem spiral_enumeration_witness :
    1 ≤ 1 ∧ ∃ n, 1 ≤ n ∧ n < spiralMax 1 ∧ spiralPair n = ((1 : Int), (1 : Int)) :=
  ⟨le_rfl, (spiral_enumeration 1 le_rfl).2.2.1 (1, 1) (by decide) (by decide) (by decide)⟩

end GitVain
